import Mathlib

/-!
Shallow embedding of the PII detection/redaction engine
(`detector_Rakshit_saxena.py`, class `PIIDetectorRedactor`).

Records are ordered association lists from string keys to scalar/null
values, mirroring Python dicts (unique keys, insertion order).  String
values are lists of characters.  The compiled regular expressions of the
source are embedded as executable Boolean search functions over character
lists; Python's `str.split`, slicing and indexing are embedded with their
clamping/raising behaviour made explicit (an operation that can raise an
`IndexError` in Python is embedded as an `Option`).
-/

namespace PII

/-- Scalar or null JSON-style value stored in a record field. -/
inductive Value where
  | str (s : List Char)
  | num (n : Int)
  | null
deriving DecidableEq

/-- A record: ordered association list from field names to values,
modelling a Python dict. -/
abbrev Record := List (String × Value)

/-- Lookup of a key in a record (first matching entry, as in a dict). -/
def lookupKey : Record → String → Option Value
  | [], _ => none
  | e :: t, k => if e.1 = k then some e.2 else lookupKey t k

/-- Python dict assignment `d[k] = v` for a key already present: the entry
keeps its position, only the value changes. -/
def setKey (r : Record) (k : String) (v : Value) : Record :=
  r.map fun p => if p.1 = k then (k, v) else p

/-! ### Character classes and regex search primitives -/

/-- Digit character class, as in the regex `\d`. -/
def isDigitC (c : Char) : Bool := '0' ≤ c && c ≤ '9'

/-- Word character class, as in the regex `\w`. -/
def isWordC (c : Char) : Bool := c.isAlpha || isDigitC c || c = '_'

/-- Character class `[\w\.-]` used by the UPI pattern. -/
def isUpiC (c : Char) : Bool := isWordC c || c = '.' || c = '-'

/-- Character at index `i`, `none` when out of range. -/
def charAt : List Char → Nat → Option Char
  | [], _ => none
  | c :: _, 0 => some c
  | _ :: t, i + 1 => charAt t i

/-- Whether the character at index `i` exists and is a word character;
positions outside the string count as non-word. -/
def wordAt (l : List Char) (i : Nat) : Bool :=
  match charAt l i with
  | some c => isWordC c
  | none => false

/-- Word boundary `\b` at position `i` (between index `i - 1` and `i`). -/
def boundaryAt (l : List Char) (i : Nat) : Bool :=
  (decide (i ≠ 0) && wordAt l (i - 1)) != wordAt l i

/-- All characters in the half-open index range `[i, j)` satisfy `p`. -/
def sliceAll (l : List Char) (i j : Nat) (p : Char → Bool) : Bool :=
  ((l.drop i).take (j - i)).all p

/-- Search for `\b\d{n}\b` anywhere in the string (`re.search`). -/
def searchNDigits (l : List Char) (n : Nat) : Bool :=
  (List.range (l.length + 1)).any fun i =>
    boundaryAt l i && decide (i + n ≤ l.length) &&
      sliceAll l i (i + n) isDigitC && boundaryAt l (i + n)

/-- The `phone` pattern: `\b\d{10}\b`. -/
def phone_search (l : List Char) : Bool := searchNDigits l 10

/-- The `aadhar` pattern: `\b\d{12}\b`. -/
def aadhar_search (l : List Char) : Bool := searchNDigits l 12

/-- The `passport` pattern: `\b[A-Z]{1}\d{7}\b`. -/
def passport_search (l : List Char) : Bool :=
  (List.range (l.length + 1)).any fun i =>
    boundaryAt l i &&
      (match charAt l i with
       | some c => decide ('A' ≤ c) && decide (c ≤ 'Z')
       | none => false) &&
      decide (i + 8 ≤ l.length) && sliceAll l (i + 1) (i + 8) isDigitC &&
      boundaryAt l (i + 8)

/-- First alternative of the `upi_id` pattern:
`\b[\w\.-]+@[\w\.-]+\.\w+\b`.  A match exists iff the string decomposes at
indices `i < j < k < m` into a nonempty `[\w\.-]+` run, an `@`, a second
nonempty `[\w\.-]+` run, a `.`, and a nonempty `\w+` run, with word
boundaries at both ends. -/
def upiAlt1 (l : List Char) : Bool :=
  (List.range (l.length + 1)).any fun i =>
    (List.range (l.length + 1)).any fun j =>
      (List.range (l.length + 1)).any fun k =>
        (List.range (l.length + 1)).any fun m =>
          boundaryAt l i && decide (i < j) && sliceAll l i j isUpiC &&
            decide (charAt l j = some '@') &&
            decide (j + 1 < k) && sliceAll l (j + 1) k isUpiC &&
            decide (charAt l k = some '.') &&
            decide (k + 1 < m) && decide (m ≤ l.length) &&
            sliceAll l (k + 1) m isWordC && boundaryAt l m

/-- Second alternative of the `upi_id` pattern: `\b\d{10}@\w+\b`. -/
def upiAlt2 (l : List Char) : Bool :=
  (List.range (l.length + 1)).any fun i =>
    (List.range (l.length + 1)).any fun m =>
      boundaryAt l i && decide (i + 10 ≤ l.length) &&
        sliceAll l i (i + 10) isDigitC &&
        decide (charAt l (i + 10) = some '@') &&
        decide (i + 11 < m) && decide (m ≤ l.length) &&
        sliceAll l (i + 11) m isWordC && boundaryAt l m

/-- The `upi_id` pattern: `\b[\w\.-]+@[\w\.-]+\.\w+\b|\b\d{10}@\w+\b`. -/
def upi_search (l : List Char) : Bool := upiAlt1 l || upiAlt2 l

/-! ### Python string helpers -/

/-- Python `s[-n:]`: the last `n` characters, clamped. -/
def takeLast (n : Nat) (l : List Char) : List Char := l.drop (l.length - n)

/-- Python `s.split(sep)` for a one-character separator: always returns at
least one part; empty parts are kept. -/
def splitOnAt (sep : Char) : List Char → List (List Char)
  | [] => [[]]
  | c :: rest =>
    let r := splitOnAt sep rest
    if c = sep then [] :: r
    else
      match r with
      | h :: t => (c :: h) :: t
      | [] => [[c]]

/-- Python whitespace test used by `str.split()` with no argument. -/
def isSpaceC (c : Char) : Bool :=
  c = ' ' || c = '\t' || c = '\n' || c = '\r' || c.toNat = 11 || c.toNat = 12

/-- Helper for `pySplitWS`: accumulates the current word reversed. -/
def splitWSAux : List Char → List Char → List (List Char)
  | [], acc => if acc = [] then [] else [acc.reverse]
  | c :: rest, acc =>
    if isSpaceC c then
      if acc = [] then splitWSAux rest []
      else acc.reverse :: splitWSAux rest []
    else splitWSAux rest (c :: acc)

/-- Python `s.split()` with no argument: split on whitespace runs,
discarding empty parts. -/
def pySplitWS (l : List Char) : List (List Char) := splitWSAux l []

/-! ### Redaction functions -/

/-- `redact_phone`: `phone[:2] + 'XXXXXX' + phone[-2:]` (slicing clamps). -/
def redact_phone (phone : List Char) : List Char :=
  phone.take 2 ++ "XXXXXX".data ++ takeLast 2 phone

/-- `redact_aadhar`: `aadhar[:4] + 'XXXX' + aadhar[-4:]` (slicing clamps). -/
def redact_aadhar (aadhar : List Char) : List Char :=
  aadhar.take 4 ++ "XXXX".data ++ takeLast 4 aadhar

/-- `redact_passport`: `passport[0] + 'XXXXXXX'`; indexing an empty string
raises, embedded as `none`. -/
def redact_passport (passport : List Char) : Option (List Char) :=
  match passport with
  | [] => none
  | c :: _ => some (c :: "XXXXXXX".data)

/-- `redact_upi`: if `'@' in upi`, `parts[0][:2] + 'XXX@' + parts[1]` of
the split on every `'@'`; otherwise the literal `'XXX@XXX'`.  Under the
guard the split always has at least two parts, so the `none` case of the
inner match is unreachable. -/
def redact_upi (upi : List Char) : Option (List Char) :=
  if upi.any (fun c => c = '@') then
    match splitOnAt '@' upi with
    | p0 :: p1 :: _ => some (p0.take 2 ++ "XXX@".data ++ p1)
    | _ => none
  else some "XXX@XXX".data

/-- `redact_name`: with two or more whitespace-separated parts,
`parts[0][0] + 'XXX ' + parts[-1][0] + 'XXX'`; otherwise
`name[0] + 'XXX'`, which raises (`none`) on the empty string. -/
def redact_name (name : List Char) : Option (List Char) :=
  let parts := pySplitWS name
  if 2 ≤ parts.length then
    match parts.head?, parts.getLast? with
    | some (c0 :: _), some (cl :: _) =>
      some ((c0 :: "XXX ".data) ++ (cl :: "XXX".data))
    | _, _ => none
  else
    match name with
    | [] => none
    | c :: _ => some (c :: "XXX".data)

/-- `redact_email`: `parts[0][:2] + 'XXX@' + parts[1]` of the split on
every `'@'`; accessing `parts[1]` raises (`none`) when the value has no
`'@'`. -/
def redact_email (email : List Char) : Option (List Char) :=
  match splitOnAt '@' email with
  | p0 :: p1 :: _ => some (p0.take 2 ++ "XXX@".data ++ p1)
  | _ => none

/-! ### The detection/redaction engine -/

/-- The fixed quasi-identifier key list `combinatorial_pii_fields`. -/
def combinatorial_pii_fields : List String :=
  ["name", "email", "address", "device_id", "ip_address"]

/-- State threaded through the first loop of `detect_pii`. -/
structure Loop1State where
  redacted : Record
  standalone : Bool
  combCount : Nat
  combFields : List String
deriving DecidableEq

/-- One iteration of the first loop of `detect_pii` for entry `e`:
standalone checks (string values only, `elif` chain), then the independent
combinatorial presence check. -/
def step1 (st : Loop1State) (e : String × Value) : Option Loop1State :=
  match e.2 with
  | Value.str s =>
    (if e.1 = "phone" ∧ phone_search s = true then
        some { st with standalone := true,
                       redacted := setKey st.redacted e.1 (Value.str (redact_phone s)) }
      else if e.1 = "aadhar" ∧ aadhar_search s = true then
        some { st with standalone := true,
                       redacted := setKey st.redacted e.1 (Value.str (redact_aadhar s)) }
      else if e.1 = "passport" ∧ passport_search s = true then
        (redact_passport s).map fun m =>
          { st with standalone := true,
                    redacted := setKey st.redacted e.1 (Value.str m) }
      else if e.1 = "upi_id" ∧ upi_search s = true then
        (redact_upi s).map fun m =>
          { st with standalone := true,
                    redacted := setKey st.redacted e.1 (Value.str m) }
      else some st).map fun st1 =>
        if e.1 ∈ combinatorial_pii_fields then
          { st1 with combCount := st1.combCount + 1,
                     combFields := st1.combFields ++ [e.1] }
        else st1
  | _ => some st

/-- The first loop of `detect_pii` over the record's entries. -/
def loop1 : Record → Loop1State → Option Loop1State
  | [], st => some st
  | e :: rest, st => (step1 st e).bind (loop1 rest)

/-- One iteration of the second loop of `detect_pii` for the field name
`field` from `combinatorial_fields_found`: the `elif` chain on the field
name, each branch guarded by membership in the redacted record and
rewriting the field's current value. -/
def step2 (red : Record) (field : String) : Option Record :=
  if field = "name" then
    match lookupKey red "name" with
    | some (Value.str s) => (redact_name s).map fun m => setKey red "name" (Value.str m)
    | some _ => none
    | none => some red
  else if field = "email" then
    match lookupKey red "email" with
    | some (Value.str s) => (redact_email s).map fun m => setKey red "email" (Value.str m)
    | some _ => none
    | none => some red
  else if field = "address" then
    match lookupKey red "address" with
    | some _ => some (setKey red "address" (Value.str "[REDACTED_ADDRESS]".data))
    | none => some red
  else if field = "device_id" then
    match lookupKey red "device_id" with
    | some _ => some (setKey red "device_id" (Value.str "[REDACTED_DEVICE_ID]".data))
    | none => some red
  else if field = "ip_address" then
    match lookupKey red "ip_address" with
    | some _ => some (setKey red "ip_address" (Value.str "[REDACTED_IP]".data))
    | none => some red
  else some red

/-- The second loop of `detect_pii` over `combinatorial_fields_found`. -/
def loop2 : List String → Record → Option Record
  | [], red => some red
  | f :: rest, red => (step2 red f).bind (loop2 rest)

/-- `detect_pii`: returns `(is_pii, redacted_data)`, or `none` when the
Python code would raise. -/
def detect_pii (data : Record) : Option (Bool × Record) :=
  (loop1 data { redacted := data, standalone := false, combCount := 0, combFields := [] }).bind
    fun st =>
      (if 2 ≤ st.combCount then loop2 st.combFields st.redacted else some st.redacted).map
        fun red => (st.standalone || decide (2 ≤ st.combCount), red)

/-! ### Derived / specification-side definitions (read off the source) -/

/-- Whether entry `(k, v)` fires one of the four standalone rules of the
first loop of `detect_pii`. -/
def firesStandalone (k : String) (v : Value) : Bool :=
  match v with
  | Value.str s =>
    (decide (k = "phone") && phone_search s) ||
      (decide (k = "aadhar") && aadhar_search s) ||
      (decide (k = "passport") && passport_search s) ||
      (decide (k = "upi_id") && upi_search s)
  | _ => false

/-- The masked value produced by the standalone branch that fires for
entry `e` (the entry's own value when no branch fires). -/
def mask1 (e : String × Value) : Value :=
  match e.2 with
  | Value.str s =>
    if e.1 = "phone" ∧ phone_search s = true then Value.str (redact_phone s)
    else if e.1 = "aadhar" ∧ aadhar_search s = true then Value.str (redact_aadhar s)
    else if e.1 = "passport" ∧ passport_search s = true then
      Value.str ((redact_passport s).getD [])
    else if e.1 = "upi_id" ∧ upi_search s = true then
      Value.str ((redact_upi s).getD [])
    else e.2
  | _ => e.2

/-- Whether an entry counts for the combinatorial rule: a quasi-identifier
key carrying a string value (the `isinstance(value, str)` guard of the
source encloses the combinatorial check). -/
def isQuasiStr (e : String × Value) : Bool :=
  decide (e.1 ∈ combinatorial_pii_fields) &&
    (match e.2 with | Value.str _ => true | _ => false)

/-- Whether some entry of the record fires a standalone rule. -/
def standaloneAny (r : Record) : Bool := r.any fun e => firesStandalone e.1 e.2

/-- Number of quasi-identifier keys with string values
(`combinatorial_pii_count`). -/
def quasiStrCount (r : Record) : Nat := r.countP isQuasiStr

/-- The list `combinatorial_fields_found` built by the first loop. -/
def quasiFieldList (r : Record) : List String := (r.filter isQuasiStr).map Prod.fst

/-- The effect of the first loop on the redacted copy: apply every firing
standalone mask, in entry order. -/
def applyStandalone (red : Record) (r : Record) : Record :=
  r.foldl
    (fun red e => if firesStandalone e.1 e.2 = true then setKey red e.1 (mask1 e) else red)
    red

/-- The masking applied by the second loop to the current value `v` of a
field named `f` (`some v` when `f` is none of the five names, matching the
loop's fall-through). -/
def combMaskV (f : String) (v : Value) : Option Value :=
  if f = "name" then
    match v with | Value.str s => (redact_name s).map Value.str | _ => none
  else if f = "email" then
    match v with | Value.str s => (redact_email s).map Value.str | _ => none
  else if f = "address" then some (Value.str "[REDACTED_ADDRESS]".data)
  else if f = "device_id" then some (Value.str "[REDACTED_DEVICE_ID]".data)
  else if f = "ip_address" then some (Value.str "[REDACTED_IP]".data)
  else some v

/-- The final value of entry `e` in the redacted record, as a function of
the entry and the combinatorial flag. -/
def entryMaskTotal (comb : Bool) (e : String × Value) : Value :=
  if firesStandalone e.1 e.2 then mask1 e
  else if comb && isQuasiStr e then (combMaskV e.1 e.2).getD e.2
  else e.2

/-- The part of `l` strictly before the first occurrence of `sep`
(`l` itself when `sep` does not occur). -/
def beforeSep (sep : Char) : List Char → List Char
  | [] => []
  | c :: rest => if c = sep then [] else c :: beforeSep sep rest

/-- The part of `l` strictly after the first occurrence of `sep`
(`[]` when `sep` does not occur). -/
def afterFirstSep (sep : Char) : List Char → List Char
  | [] => []
  | c :: rest => if c = sep then rest else afterFirstSep sep rest

/-- Whether processing field name `f` in the second loop can succeed on
the current redacted record: fields outside the quasi-identifier set or
absent from the record are no-ops; otherwise the mask of the current value
must not raise. -/
def fieldOk (red : Record) (f : String) : Bool :=
  !decide (f ∈ combinatorial_pii_fields) ||
    (match lookupKey red f with
     | none => true
     | some v => (combMaskV f v).isSome)

/-- Count of quasi-identifier keys present in a record by key presence
alone, regardless of the value.  Modelled from the spec sentence "two or
more of these keys are present (key presence alone — value is not
pattern-checked)"; used to compare the spec's rule with the source's. -/
def specQuasiPresentCount (r : Record) : Nat :=
  r.countP fun e => decide (e.1 ∈ combinatorial_pii_fields)

/-! ### Basic lemmas about record operations -/

theorem lookupKey_eq_none_iff (r : Record) (k : String) :
    lookupKey r k = none ↔ k ∉ r.map Prod.fst := by
  induction r with
  | nil => simp [lookupKey]
  | cons e t ih =>
    obtain ⟨a, w⟩ := e
    by_cases h : a = k
    · subst h
      simp [lookupKey]
    · simp [lookupKey, h, ih, Ne.symm h]

theorem setKey_keys (r : Record) (k : String) (v : Value) :
    (setKey r k v).map Prod.fst = r.map Prod.fst := by
  induction r with
  | nil => rfl
  | cons e t ih =>
    obtain ⟨a, w⟩ := e
    by_cases h : a = k
    · subst h
      simpa [setKey] using ih
    · simpa [setKey, h] using ih

theorem lookupKey_setKey_self (r : Record) (k : String) (v : Value)
    (h : k ∈ r.map Prod.fst) : lookupKey (setKey r k v) k = some v := by
  induction r with
  | nil => simp at h
  | cons e t ih =>
    obtain ⟨a, w⟩ := e
    by_cases he : a = k
    · subst he
      simp [setKey, lookupKey]
    · have h' : k ∈ t.map Prod.fst := by
        rcases List.mem_map.1 h with ⟨p, hp, hpk⟩
        rcases List.mem_cons.1 hp with rfl | hp'
        · exact absurd (by simpa using hpk) he
        · exact List.mem_map.2 ⟨p, hp', hpk⟩
      simpa [setKey, lookupKey, he] using ih h'

theorem lookupKey_setKey_ne (r : Record) (k k' : String) (v : Value)
    (h : k' ≠ k) : lookupKey (setKey r k v) k' = lookupKey r k' := by
  induction r with
  | nil => rfl
  | cons e t ih =>
    obtain ⟨a, w⟩ := e
    by_cases ha : a = k
    · subst ha
      simpa [setKey, lookupKey, Ne.symm h] using ih
    · by_cases ha' : a = k'
      · simp [setKey, lookupKey, ha, ha', h]
      · simpa [setKey, lookupKey, ha, ha'] using ih

theorem lookupKey_of_mem_nodup {r : Record} {k : String} {v : Value}
    (hnd : (r.map Prod.fst).Nodup) (hm : (k, v) ∈ r) : lookupKey r k = some v := by
  induction r with
  | nil => simp at hm
  | cons e t ih =>
    obtain ⟨a, w⟩ := e
    simp only [List.map_cons, List.nodup_cons] at hnd
    rcases List.mem_cons.1 hm with heq | hm'
    · injection heq with h1 h2
      subst h1
      subst h2
      simp [lookupKey]
    · have hk : k ∈ t.map Prod.fst := List.mem_map.2 ⟨(k, v), hm', rfl⟩
      have ha : a ≠ k := fun h => hnd.1 (h ▸ hk)
      simp only [lookupKey, ha, if_false]
      exact ih hnd.2 hm'

/-! ### Lemmas about splitting and the redaction helpers -/

theorem splitOnAt_ne_nil (sep : Char) (l : List Char) : splitOnAt sep l ≠ [] := by
  induction l with
  | nil => simp [splitOnAt]
  | cons c rest ih =>
    by_cases h : c = sep
    · simp [splitOnAt, h]
    · simp only [splitOnAt, if_neg h]
      rcases hr : splitOnAt sep rest with _ | ⟨p, t⟩
      · exact absurd hr ih
      · simp

theorem splitOnAt_of_not_mem {sep : Char} {l : List Char} (h : sep ∉ l) :
    splitOnAt sep l = [l] := by
  induction l with
  | nil => rfl
  | cons c rest ih =>
    have hc : ¬c = sep := fun hcs => h (hcs ▸ List.mem_cons_self c rest)
    have hrest : sep ∉ rest := fun hm => h (List.mem_cons_of_mem c hm)
    simp only [splitOnAt, if_neg hc, ih hrest]

theorem splitOnAt_of_mem {sep : Char} {l : List Char} (h : sep ∈ l) :
    splitOnAt sep l = beforeSep sep l :: splitOnAt sep (afterFirstSep sep l) := by
  induction l with
  | nil => simp at h
  | cons c rest ih =>
    by_cases hc : c = sep
    · subst hc
      simp [splitOnAt, beforeSep, afterFirstSep]
    · have hrest : sep ∈ rest := by
        rcases List.mem_cons.1 h with heq | hm
        · exact absurd heq.symm hc
        · exact hm
      simp only [splitOnAt, if_neg hc, beforeSep, afterFirstSep, ih hrest]

theorem splitOnAt_head (sep : Char) (l : List Char) :
    ∃ t, splitOnAt sep l = beforeSep sep l :: t := by
  by_cases h : sep ∈ l
  · exact ⟨_, splitOnAt_of_mem h⟩
  · refine ⟨[], ?_⟩
    rw [splitOnAt_of_not_mem h]
    have : beforeSep sep l = l := by
      induction l with
      | nil => rfl
      | cons c rest ih =>
        have hc : ¬c = sep := fun hcs => h (hcs ▸ List.mem_cons_self c rest)
        have hrest : sep ∉ rest := fun hm => h (List.mem_cons_of_mem c hm)
        simp [beforeSep, hc, ih hrest]
    rw [this]

theorem splitOnAt_two_of_mem {sep : Char} {l : List Char} (h : sep ∈ l) :
    ∃ t, splitOnAt sep l =
      beforeSep sep l :: beforeSep sep (afterFirstSep sep l) :: t := by
  rw [splitOnAt_of_mem h]
  obtain ⟨t, ht⟩ := splitOnAt_head sep (afterFirstSep sep l)
  exact ⟨t, by rw [ht]⟩

theorem pySplitWS_parts_ne_nil {l : List Char} :
    ∀ w ∈ pySplitWS l, w ≠ [] := by
  have aux : ∀ (l acc : List Char), ∀ w ∈ splitWSAux l acc, w ≠ [] := by
    intro l
    induction l with
    | nil =>
      intro acc w hw
      by_cases h : acc = []
      · simp [splitWSAux, h] at hw
      · simp [splitWSAux, h] at hw
        subst hw
        simpa using h
    | cons c rest ih =>
      intro acc w hw
      by_cases hs : isSpaceC c = true
      · by_cases h : acc = []
        · exact ih [] w (by simpa [splitWSAux, hs, h] using hw)
        · simp only [splitWSAux, hs, if_true, if_neg h] at hw
          rcases List.mem_cons.1 hw with heq | hm
          · subst heq
            simpa using h
          · exact ih [] w hm
      · exact ih (c :: acc) w (by simpa [splitWSAux, hs] using hw)
  exact aux l []

theorem redact_name_isSome_iff (s : List Char) :
    (redact_name s).isSome = true ↔ s ≠ [] := by
  constructor
  · intro h hnil
    subst hnil
    simp [redact_name, pySplitWS, splitWSAux] at h
  · intro hne
    unfold redact_name
    by_cases hlen : 2 ≤ (pySplitWS s).length
    · rcases hp0 : (pySplitWS s).head? with _ | p0
      · rw [List.head?_eq_none_iff] at hp0
        simp [hp0] at hlen
      · rcases hpl : (pySplitWS s).getLast? with _ | pl
        · rw [List.getLast?_eq_none_iff] at hpl
          simp [hpl] at hlen
        · have hp0ne : p0 ≠ [] :=
            pySplitWS_parts_ne_nil p0 (List.mem_of_mem_head? hp0)
          have hplne : pl ≠ [] :=
            pySplitWS_parts_ne_nil pl (List.mem_of_mem_getLast? hpl)
          rcases p0 with _ | ⟨c0, p0'⟩
          · exact absurd rfl hp0ne
          · rcases pl with _ | ⟨cl, pl'⟩
            · exact absurd rfl hplne
            · simp [hlen, hp0, hpl]
    · rcases s with _ | ⟨c, rest⟩
      · exact absurd rfl hne
      · simp [hlen]

theorem redact_email_isSome_iff (s : List Char) :
    (redact_email s).isSome = true ↔ '@' ∈ s := by
  constructor
  · intro h
    by_contra hnm
    rw [redact_email, splitOnAt_of_not_mem hnm] at h
    simp at h
  · intro hm
    obtain ⟨t, ht⟩ := splitOnAt_two_of_mem hm
    rw [redact_email, ht]
    simp

theorem redact_email_eq_of_mem {s : List Char} (hm : '@' ∈ s) :
    redact_email s =
      some ((beforeSep '@' s).take 2 ++ "XXX@".data ++
        beforeSep '@' (afterFirstSep '@' s)) := by
  obtain ⟨t, ht⟩ := splitOnAt_two_of_mem hm
  rw [redact_email, ht]

theorem redact_upi_eq_of_mem {s : List Char} (hm : '@' ∈ s) :
    redact_upi s =
      some ((beforeSep '@' s).take 2 ++ "XXX@".data ++
        beforeSep '@' (afterFirstSep '@' s)) := by
  have hany : (s.any fun c => c = '@') = true :=
    List.any_eq_true.2 ⟨'@', hm, by simp⟩
  obtain ⟨t, ht⟩ := splitOnAt_two_of_mem hm
  rw [redact_upi, if_pos hany, ht]

/-! ### Lemmas about the pattern-search functions -/

theorem charAt_mem {l : List Char} {i : Nat} {c : Char}
    (h : charAt l i = some c) : c ∈ l := by
  induction l generalizing i with
  | nil => simp [charAt] at h
  | cons d t ih =>
    rcases i with _ | i
    · simp [charAt] at h
      simp [h]
    · exact List.mem_cons_of_mem d (ih h)

theorem charAt_eq_none_of_le {l : List Char} {i : Nat}
    (h : l.length ≤ i) : charAt l i = none := by
  induction l generalizing i with
  | nil => rfl
  | cons d t ih =>
    rcases i with _ | i
    · simp at h
    · exact ih (by simpa using h)

theorem charAt_isSome_of_lt {l : List Char} {i : Nat}
    (h : i < l.length) : ∃ c, charAt l i = some c := by
  induction l generalizing i with
  | nil => simp at h
  | cons d t ih =>
    rcases i with _ | i
    · exact ⟨d, rfl⟩
    · exact ih (by simpa using h)

theorem isWordC_of_isDigitC {c : Char} (h : isDigitC c = true) :
    isWordC c = true := by
  simp [isWordC, h]

/-- A string whose `passport` pattern search succeeds is nonempty, so
`redact_passport` cannot raise there. -/
theorem passport_search_ne_nil {l : List Char}
    (h : passport_search l = true) : l ≠ [] := by
  unfold passport_search at h
  obtain ⟨i, _, hcond⟩ := List.any_eq_true.1 h
  simp only [Bool.and_eq_true] at hcond
  rcases hch : charAt l i with _ | c
  · rw [hch] at hcond
    simp at hcond
  · exact List.ne_nil_of_mem (charAt_mem hch)

/-- A string whose `upi_id` pattern search succeeds contains an `'@'`, so
`redact_upi` takes its main branch there. -/
theorem upi_search_mem {l : List Char} (h : upi_search l = true) :
    '@' ∈ l := by
  unfold upi_search at h
  rcases Bool.or_eq_true_iff.1 h with h1 | h2
  · unfold upiAlt1 at h1
    obtain ⟨i, _, h1⟩ := List.any_eq_true.1 h1
    obtain ⟨j, _, h1⟩ := List.any_eq_true.1 h1
    obtain ⟨k, _, h1⟩ := List.any_eq_true.1 h1
    obtain ⟨m, _, h1⟩ := List.any_eq_true.1 h1
    simp only [Bool.and_eq_true, decide_eq_true_eq] at h1
    exact charAt_mem h1.1.1.1.1.1.1.1.2
  · unfold upiAlt2 at h2
    obtain ⟨i, _, h2⟩ := List.any_eq_true.1 h2
    obtain ⟨m, _, h2⟩ := List.any_eq_true.1 h2
    simp only [Bool.and_eq_true, decide_eq_true_eq] at h2
    exact charAt_mem h2.1.1.1.1.2

/-- The `phone` pattern `\b\d{10}\b` matches any string that is exactly
ten digits. -/
theorem phone_search_of_digits {s : List Char} (hlen : s.length = 10)
    (hdig : s.all isDigitC = true) : phone_search s = true := by
  unfold phone_search searchNDigits
  refine List.any_eq_true.2 ⟨0, List.mem_range.2 (by omega), ?_⟩
  have hword : ∀ i, i < 10 → wordAt s i = true := by
    intro i hi
    obtain ⟨c, hc⟩ := charAt_isSome_of_lt (l := s) (i := i) (by omega)
    have hcd : isDigitC c = true := List.all_eq_true.1 hdig c (charAt_mem hc)
    simp [wordAt, hc, isWordC_of_isDigitC hcd]
  have hb0 : boundaryAt s 0 = true := by
    simp [boundaryAt, hword 0 (by omega)]
  have hb10 : boundaryAt s 10 = true := by
    have hnone : charAt s 10 = none := charAt_eq_none_of_le (by omega)
    have h10 : wordAt s 10 = false := by simp [wordAt, hnone]
    simp [boundaryAt, hword 9 (by omega), h10]
  have hslice : sliceAll s 0 10 isDigitC = true := by
    have : s.take 10 = s := by
      rw [← hlen]
      exact List.take_length s
    simpa [sliceAll, this] using hdig
  simp [hb0, hb10, hslice, hlen]

theorem mem_of_lookupKey {r : Record} {k : String} {v : Value}
    (h : lookupKey r k = some v) : (k, v) ∈ r := by
  induction r with
  | nil => simp [lookupKey] at h
  | cons e t ih =>
    obtain ⟨a, w⟩ := e
    by_cases ha : a = k
    · subst ha
      simp [lookupKey] at h
      subst h
      exact List.mem_cons_self _ _
    · simp [lookupKey, ha] at h
      exact List.mem_cons.2 (Or.inr (ih h))

theorem key_mem_of_lookupKey {r : Record} {k : String} {v : Value}
    (h : lookupKey r k = some v) : k ∈ r.map Prod.fst :=
  List.mem_map.2 ⟨(k, v), mem_of_lookupKey h, rfl⟩

theorem entry_unique {r : Record} {e e' : String × Value}
    (hnd : (r.map Prod.fst).Nodup) (he : e ∈ r) (he' : e' ∈ r)
    (hk : e.1 = e'.1) : e = e' := by
  obtain ⟨k, v⟩ := e
  obtain ⟨k', v'⟩ := e'
  simp only at hk
  subst hk
  have h1 := lookupKey_of_mem_nodup hnd he
  have h2 := lookupKey_of_mem_nodup hnd he'
  rw [h1] at h2
  simp only [Option.some.injEq] at h2
  rw [h2]

/-! ### Characterization of the first loop -/

theorem redact_passport_isSome {s : List Char}
    (h : passport_search s = true) : ∃ m, redact_passport s = some m := by
  rcases hs : s with _ | ⟨c, t⟩
  · exact absurd hs (passport_search_ne_nil (hs ▸ h))
  · exact ⟨_, rfl⟩

theorem redact_upi_isSome {s : List Char}
    (h : upi_search s = true) : ∃ m, redact_upi s = some m :=
  ⟨_, redact_upi_eq_of_mem (upi_search_mem h)⟩

theorem step1_eq (st : Loop1State) (e : String × Value) :
    step1 st e = some
      { redacted :=
          if firesStandalone e.1 e.2 = true then setKey st.redacted e.1 (mask1 e)
          else st.redacted,
        standalone := st.standalone || firesStandalone e.1 e.2,
        combCount := st.combCount + (if isQuasiStr e = true then 1 else 0),
        combFields := st.combFields ++ (if isQuasiStr e = true then [e.1] else []) } := by
  obtain ⟨k, v⟩ := e
  rcases v with s | n | _
  · by_cases h1 : k = "phone" ∧ phone_search s = true
    · obtain ⟨hk, hps⟩ := h1
      subst hk
      simp [step1, mask1, firesStandalone, isQuasiStr, combinatorial_pii_fields, hps]
    · by_cases h2 : k = "aadhar" ∧ aadhar_search s = true
      · obtain ⟨hk, hps⟩ := h2
        subst hk
        simp [step1, mask1, firesStandalone, isQuasiStr, combinatorial_pii_fields, hps]
      · by_cases h3 : k = "passport" ∧ passport_search s = true
        · obtain ⟨hk, hps⟩ := h3
          subst hk
          obtain ⟨m, hm⟩ := redact_passport_isSome hps
          simp [step1, mask1, firesStandalone, isQuasiStr, combinatorial_pii_fields,
            hps, hm]
        · by_cases h4 : k = "upi_id" ∧ upi_search s = true
          · obtain ⟨hk, hps⟩ := h4
            subst hk
            obtain ⟨m, hm⟩ := redact_upi_isSome hps
            simp [step1, mask1, firesStandalone, isQuasiStr, combinatorial_pii_fields,
              hps, hm]
          · have hf : firesStandalone k (Value.str s) = false := by
              rw [Bool.eq_false_iff]
              intro htrue
              rcases (by simpa [firesStandalone, Bool.or_eq_true, Bool.and_eq_true,
                decide_eq_true_eq] using htrue) with
                ((⟨ha, hb⟩ | ⟨ha, hb⟩) | ⟨ha, hb⟩) | ⟨ha, hb⟩
              · exact h1 ⟨ha, hb⟩
              · exact h2 ⟨ha, hb⟩
              · exact h3 ⟨ha, hb⟩
              · exact h4 ⟨ha, hb⟩
            by_cases hq : k ∈ combinatorial_pii_fields
            · have hq' : isQuasiStr (k, Value.str s) = true := by
                simp [isQuasiStr, hq]
              simp [step1, h1, h2, h3, h4, hf, hq, hq']
            · have hq' : isQuasiStr (k, Value.str s) = false := by
                simp [isQuasiStr, hq]
              simp [step1, h1, h2, h3, h4, hf, hq, hq']
  · simp [step1, firesStandalone, isQuasiStr]
  · simp [step1, firesStandalone, isQuasiStr]

theorem loop1_eq (r : Record) (st : Loop1State) :
    loop1 r st = some
      { redacted := applyStandalone st.redacted r,
        standalone := st.standalone || standaloneAny r,
        combCount := st.combCount + quasiStrCount r,
        combFields := st.combFields ++ quasiFieldList r } := by
  induction r generalizing st with
  | nil =>
    simp [loop1, applyStandalone, standaloneAny, quasiStrCount, quasiFieldList]
  | cons e rest ih =>
    rw [loop1, step1_eq, Option.some_bind, ih]
    simp only [Option.some.injEq, Loop1State.mk.injEq]
    refine ⟨rfl, ?_, ?_, ?_⟩
    · simp [standaloneAny, Bool.or_assoc]
    · simp only [quasiStrCount, List.countP_cons]
      omega
    · simp only [quasiFieldList, List.filter_cons]
      by_cases hq : isQuasiStr e = true <;> simp [hq, List.append_assoc]

theorem applyStandalone_keys (red : Record) (r : Record) :
    (applyStandalone red r).map Prod.fst = red.map Prod.fst := by
  induction r generalizing red with
  | nil => rfl
  | cons e rest ih =>
    show (applyStandalone (if firesStandalone e.1 e.2 = true
        then setKey red e.1 (mask1 e) else red) rest).map Prod.fst = red.map Prod.fst
    by_cases hf : firesStandalone e.1 e.2 = true
    · rw [if_pos hf, ih, setKey_keys]
    · rw [if_neg hf, ih]

theorem lookupKey_applyStandalone_not_mem {r : Record} (red : Record) {k : String}
    (hk : k ∉ r.map Prod.fst) :
    lookupKey (applyStandalone red r) k = lookupKey red k := by
  induction r generalizing red with
  | nil => rfl
  | cons e rest ih =>
    have hne : k ≠ e.1 := by
      intro h
      exact hk (by simp [h])
    have hk' : k ∉ rest.map Prod.fst := fun hm => hk (by simp [hm])
    show lookupKey (applyStandalone (if firesStandalone e.1 e.2 = true
        then setKey red e.1 (mask1 e) else red) rest) k = lookupKey red k
    by_cases hf : firesStandalone e.1 e.2 = true
    · rw [if_pos hf, ih _ hk', lookupKey_setKey_ne _ _ _ _ hne]
    · rw [if_neg hf, ih _ hk']

theorem lookupKey_applyStandalone_mem {r : Record} (red : Record)
    {e : String × Value} (hnd : (r.map Prod.fst).Nodup)
    (hmem : ∀ e' ∈ r, e'.1 ∈ red.map Prod.fst) (he : e ∈ r) :
    lookupKey (applyStandalone red r) e.1 =
      if firesStandalone e.1 e.2 = true then some (mask1 e)
      else lookupKey red e.1 := by
  induction r generalizing red with
  | nil => simp at he
  | cons e' rest ih =>
    simp only [List.map_cons, List.nodup_cons] at hnd
    show lookupKey (applyStandalone (if firesStandalone e'.1 e'.2 = true
        then setKey red e'.1 (mask1 e') else red) rest) e.1 = _
    rcases List.mem_cons.1 he with heq | hm
    · subst heq
      have hnm : e.1 ∉ rest.map Prod.fst := hnd.1
      rw [lookupKey_applyStandalone_not_mem _ hnm]
      by_cases hf : firesStandalone e.1 e.2 = true
      · rw [if_pos hf, if_pos hf]
        exact lookupKey_setKey_self _ _ _ (hmem e (List.mem_cons_self _ _))
      · rw [if_neg hf, if_neg hf]
    · have hkne : e.1 ≠ e'.1 := by
        intro h
        exact hnd.1 (h ▸ List.mem_map.2 ⟨e, hm, rfl⟩)
      have hmem' : ∀ x ∈ rest,
          x.1 ∈ (if firesStandalone e'.1 e'.2 = true
            then setKey red e'.1 (mask1 e') else red).map Prod.fst := by
        intro x hx
        by_cases hf : firesStandalone e'.1 e'.2 = true
        · rw [if_pos hf, setKey_keys]
          exact hmem x (List.mem_cons_of_mem _ hx)
        · rw [if_neg hf]
          exact hmem x (List.mem_cons_of_mem _ hx)
      rw [ih _ hnd.2 hmem' hm]
      by_cases hf : firesStandalone e'.1 e'.2 = true
      · rw [if_pos hf, lookupKey_setKey_ne _ _ _ _ hkne]
      · rw [if_neg hf]

/-! ### Characterization of the second loop -/

theorem all_eq_of_mem {α : Type} {l : List α} {p q : α → Bool}
    (h : ∀ x ∈ l, p x = q x) : l.all p = l.all q := by
  induction l with
  | nil => rfl
  | cons x t ih =>
    simp only [List.all_cons]
    rw [h x (List.mem_cons_self _ _), ih fun y hy => h y (List.mem_cons_of_mem _ hy)]

theorem step2_char (red : Record) (f : String) :
    step2 red f =
      if f ∈ combinatorial_pii_fields then
        match lookupKey red f with
        | none => some red
        | some v => (combMaskV f v).map fun m => setKey red f m
      else some red := by
  by_cases h1 : f = "name"
  · subst h1
    unfold step2
    rw [if_pos rfl, if_pos (show ("name" : String) ∈ combinatorial_pii_fields by decide)]
    rcases hl : lookupKey red "name" with _ | v
    · rfl
    · rcases v with s | n | _
      · show Option.map (fun m => setKey red "name" (Value.str m)) (redact_name s) =
          Option.map (fun m => setKey red "name" m) (combMaskV "name" (Value.str s))
        rw [show combMaskV "name" (Value.str s) = (redact_name s).map Value.str from rfl,
          Option.map_map]
        rfl
      · rfl
      · rfl
  · by_cases h2 : f = "email"
    · subst h2
      unfold step2
      rw [if_neg (show ¬("email" : String) = "name" by decide), if_pos rfl,
        if_pos (show ("email" : String) ∈ combinatorial_pii_fields by decide)]
      rcases hl : lookupKey red "email" with _ | v
      · rfl
      · rcases v with s | n | _
        · show Option.map (fun m => setKey red "email" (Value.str m)) (redact_email s) =
            Option.map (fun m => setKey red "email" m) (combMaskV "email" (Value.str s))
          rw [show combMaskV "email" (Value.str s) = (redact_email s).map Value.str from rfl,
            Option.map_map]
          rfl
        · rfl
        · rfl
    · by_cases h3 : f = "address"
      · subst h3
        unfold step2
        rw [if_neg (show ¬("address" : String) = "name" by decide),
          if_neg (show ¬("address" : String) = "email" by decide), if_pos rfl,
          if_pos (show ("address" : String) ∈ combinatorial_pii_fields by decide)]
        rcases hl : lookupKey red "address" with _ | v
        · rfl
        · rfl
      · by_cases h4 : f = "device_id"
        · subst h4
          unfold step2
          rw [if_neg (show ¬("device_id" : String) = "name" by decide),
            if_neg (show ¬("device_id" : String) = "email" by decide),
            if_neg (show ¬("device_id" : String) = "address" by decide), if_pos rfl,
            if_pos (show ("device_id" : String) ∈ combinatorial_pii_fields by decide)]
          rcases hl : lookupKey red "device_id" with _ | v
          · rfl
          · rfl
        · by_cases h5 : f = "ip_address"
          · subst h5
            unfold step2
            rw [if_neg (show ¬("ip_address" : String) = "name" by decide),
              if_neg (show ¬("ip_address" : String) = "email" by decide),
              if_neg (show ¬("ip_address" : String) = "address" by decide),
              if_neg (show ¬("ip_address" : String) = "device_id" by decide), if_pos rfl,
              if_pos (show ("ip_address" : String) ∈ combinatorial_pii_fields by decide)]
            rcases hl : lookupKey red "ip_address" with _ | v
            · rfl
            · rfl
          · have hnm : f ∉ combinatorial_pii_fields := by
              simp [combinatorial_pii_fields, h1, h2, h3, h4, h5]
            unfold step2
            rw [if_neg h1, if_neg h2, if_neg h3, if_neg h4, if_neg h5, if_neg hnm]

theorem step2_not_mem {red : Record} {f : String}
    (hm : f ∉ combinatorial_pii_fields) : step2 red f = some red := by
  rw [step2_char, if_neg hm]

theorem step2_none {red : Record} {f : String}
    (hm : f ∈ combinatorial_pii_fields) (hl : lookupKey red f = none) :
    step2 red f = some red := by
  rw [step2_char, if_pos hm, hl]

theorem step2_some {red : Record} {f : String} {v : Value}
    (hm : f ∈ combinatorial_pii_fields) (hl : lookupKey red f = some v) :
    step2 red f = (combMaskV f v).map fun m => setKey red f m := by
  rw [step2_char, if_pos hm, hl]

theorem step2_some_keys {red red' : Record} {f : String}
    (h : step2 red f = some red') : red'.map Prod.fst = red.map Prod.fst := by
  by_cases hm : f ∈ combinatorial_pii_fields
  · rcases hl : lookupKey red f with _ | v
    · rw [step2_none hm hl] at h
      simp only [Option.some.injEq] at h
      rw [← h]
    · rw [step2_some hm hl] at h
      rcases hc : combMaskV f v with _ | m
      · rw [hc] at h
        simp at h
      · rw [hc] at h
        have h' : setKey red f m = red' := by simpa using h
        rw [← h', setKey_keys]
  · rw [step2_not_mem hm] at h
    simp only [Option.some.injEq] at h
    rw [← h]

theorem loop2_keys {flds : List String} {red red' : Record}
    (h : loop2 flds red = some red') : red'.map Prod.fst = red.map Prod.fst := by
  induction flds generalizing red with
  | nil =>
    simp only [loop2, Option.some.injEq] at h
    rw [← h]
  | cons f rest ih =>
    rcases hs : step2 red f with _ | red1
    · rw [loop2, hs] at h
      simp at h
    · rw [loop2, hs, Option.some_bind] at h
      rw [ih h, step2_some_keys hs]

theorem loop2_isSome_eq {flds : List String} (red : Record)
    (hnd : flds.Nodup) :
    (loop2 flds red).isSome = flds.all (fieldOk red) := by
  induction flds generalizing red with
  | nil => rfl
  | cons f rest ih =>
    simp only [List.nodup_cons] at hnd
    rw [loop2]
    by_cases hm : f ∈ combinatorial_pii_fields
    · rcases hl : lookupKey red f with _ | v
      · rw [step2_none hm hl, Option.some_bind, ih red hnd.2]
        have hok : fieldOk red f = true := by
          simp [fieldOk, hl]
        simp [hok]
      · rcases hc : combMaskV f v with _ | m
        · rw [step2_some hm hl, hc]
          have hok : fieldOk red f = false := by
            simp [fieldOk, hl, hc, hm]
          simp [hok]
        · rw [step2_some hm hl, hc]
          have hbind : (Option.map (fun m => setKey red f m) (some m)).bind (loop2 rest) =
              loop2 rest (setKey red f m) := rfl
          rw [hbind, ih (setKey red f m) hnd.2]
          have hall : rest.all (fieldOk (setKey red f m)) = rest.all (fieldOk red) := by
            apply all_eq_of_mem
            intro g hg
            have hgf : g ≠ f := fun hgf => hnd.1 (hgf ▸ hg)
            simp only [fieldOk, lookupKey_setKey_ne _ _ _ _ hgf]
          rw [hall]
          have hok : fieldOk red f = true := by
            simp [fieldOk, hl, hc]
          simp [hok]
    · rw [step2_not_mem hm, Option.some_bind, ih red hnd.2]
      have hok : fieldOk red f = true := by
        simp [fieldOk, hm]
      simp [hok]

theorem loop2_lookup {flds : List String} {red red' : Record}
    (hnd : flds.Nodup) (h : loop2 flds red = some red') (k : String) :
    lookupKey red' k =
      if k ∈ flds then
        (lookupKey red k).map fun v => (combMaskV k v).getD v
      else lookupKey red k := by
  induction flds generalizing red with
  | nil =>
    simp only [loop2, Option.some.injEq] at h
    rw [← h]
    simp
  | cons f rest ih =>
    simp only [List.nodup_cons] at hnd
    rw [loop2] at h
    by_cases hm : f ∈ combinatorial_pii_fields
    · rcases hl : lookupKey red f with _ | v
      · rw [step2_none hm hl, Option.some_bind] at h
        rw [ih hnd.2 h]
        by_cases hk : k = f
        · subst hk
          rw [if_neg hnd.1, if_pos (List.mem_cons_self _ _), hl]
          rfl
        · by_cases hkr : k ∈ rest
          · rw [if_pos hkr, if_pos (List.mem_cons_of_mem _ hkr)]
          · rw [if_neg hkr, if_neg (by simp [hk, hkr])]
      · rcases hc : combMaskV f v with _ | m
        · rw [step2_some hm hl, hc] at h
          simp at h
        · rw [step2_some hm hl, hc] at h
          have hbind : (Option.map (fun m => setKey red f m) (some m)).bind (loop2 rest) =
              loop2 rest (setKey red f m) := rfl
          rw [hbind] at h
          have hfred : f ∈ red.map Prod.fst := key_mem_of_lookupKey hl
          rw [ih hnd.2 h]
          by_cases hk : k = f
          · subst hk
            rw [if_neg hnd.1, lookupKey_setKey_self _ _ _ hfred,
              if_pos (List.mem_cons_self _ _), hl]
            simp [hc]
          · rw [lookupKey_setKey_ne _ _ _ _ hk]
            by_cases hkr : k ∈ rest
            · rw [if_pos hkr, if_pos (List.mem_cons_of_mem _ hkr)]
            · rw [if_neg hkr, if_neg (by simp [hk, hkr])]
    · rw [step2_not_mem hm, Option.some_bind] at h
      rw [ih hnd.2 h]
      by_cases hk : k = f
      · subst hk
        rw [if_neg hnd.1, if_pos (List.mem_cons_self _ _)]
        rcases hl : lookupKey red k with _ | v
        · simp [hl]
        · have hcv : combMaskV k v = some v := by
            unfold combMaskV
            rw [if_neg (fun hn => hm (by rw [hn]; decide)),
              if_neg (fun hn => hm (by rw [hn]; decide)),
              if_neg (fun hn => hm (by rw [hn]; decide)),
              if_neg (fun hn => hm (by rw [hn]; decide)),
              if_neg (fun hn => hm (by rw [hn]; decide))]
          simp [hl, hcv]
      · by_cases hkr : k ∈ rest
        · rw [if_pos hkr, if_pos (List.mem_cons_of_mem _ hkr)]
        · rw [if_neg hkr, if_neg (by simp [hk, hkr])]

/-! ### Assembled characterization of `detect_pii` -/

theorem not_fires_of_quasi {e : String × Value} (h : isQuasiStr e = true) :
    firesStandalone e.1 e.2 = false := by
  obtain ⟨k, v⟩ := e
  rcases v with s | n | _
  · simp only [isQuasiStr, Bool.and_eq_true, decide_eq_true_eq] at h
    have hk : k = "name" ∨ k = "email" ∨ k = "address" ∨ k = "device_id" ∨
        k = "ip_address" := by
      simpa [combinatorial_pii_fields] using h.1
    rcases hk with rfl | rfl | rfl | rfl | rfl
    · simp [firesStandalone]
    · simp [firesStandalone]
    · simp [firesStandalone]
    · simp [firesStandalone]
    · simp [firesStandalone]
  · simp [isQuasiStr] at h
  · simp [isQuasiStr] at h

theorem quasiFieldList_nodup {r : Record} (hnd : (r.map Prod.fst).Nodup) :
    (quasiFieldList r).Nodup :=
  hnd.sublist ((r.filter_sublist).map Prod.fst)

theorem mem_quasiFieldList {r : Record} {f : String} :
    f ∈ quasiFieldList r ↔ ∃ e ∈ r, isQuasiStr e = true ∧ e.1 = f := by
  simp only [quasiFieldList, List.mem_map, List.mem_filter]
  constructor
  · rintro ⟨e, ⟨he, hq⟩, hf⟩
    exact ⟨e, he, hq, hf⟩
  · rintro ⟨e, he, hq, hf⟩
    exact ⟨e, ⟨he, hq⟩, hf⟩

theorem lookupKey_applyStandalone_self {r : Record} {e : String × Value}
    (hnd : (r.map Prod.fst).Nodup) (he : e ∈ r) :
    lookupKey (applyStandalone r r) e.1 =
      if firesStandalone e.1 e.2 = true then some (mask1 e)
      else some e.2 := by
  rw [lookupKey_applyStandalone_mem r hnd (fun e' he' => List.mem_map.2 ⟨e', he', rfl⟩) he]
  by_cases hf : firesStandalone e.1 e.2 = true
  · rw [if_pos hf, if_pos hf]
  · rw [if_neg hf, if_neg hf, lookupKey_of_mem_nodup hnd (by exact he)]

theorem detect_pii_flag {r : Record} {b : Bool} {r' : Record}
    (h : detect_pii r = some (b, r')) :
    b = (standaloneAny r || decide (2 ≤ quasiStrCount r)) := by
  rw [detect_pii, loop1_eq, Option.some_bind] at h
  simp only [Bool.false_or, Nat.zero_add, List.nil_append] at h
  by_cases hc : 2 ≤ quasiStrCount r
  · rw [if_pos hc] at h
    rcases h2 : loop2 (quasiFieldList r) (applyStandalone r r) with _ | red2
    · rw [h2] at h
      simp at h
    · rw [h2] at h
      simp only [Option.map_some', Option.some.injEq, Prod.mk.injEq] at h
      exact h.1.symm
  · rw [if_neg hc] at h
    simp only [Option.map_some', Option.some.injEq, Prod.mk.injEq] at h
    exact h.1.symm

theorem detect_pii_keys {r : Record} {b : Bool} {r' : Record}
    (h : detect_pii r = some (b, r')) :
    r'.map Prod.fst = r.map Prod.fst := by
  rw [detect_pii, loop1_eq, Option.some_bind] at h
  simp only [Bool.false_or, Nat.zero_add, List.nil_append] at h
  by_cases hc : 2 ≤ quasiStrCount r
  · rw [if_pos hc] at h
    rcases h2 : loop2 (quasiFieldList r) (applyStandalone r r) with _ | red2
    · rw [h2] at h
      simp at h
    · rw [h2] at h
      simp only [Option.map_some', Option.some.injEq, Prod.mk.injEq] at h
      rw [← h.2, loop2_keys h2, applyStandalone_keys]
  · rw [if_neg hc] at h
    simp only [Option.map_some', Option.some.injEq, Prod.mk.injEq] at h
    rw [← h.2, applyStandalone_keys]

theorem isSome_map {α β : Type} (f : α → β) (o : Option α) :
    (o.map f).isSome = o.isSome := by
  cases o <;> rfl

theorem detect_pii_isSome_iff {r : Record} (hnd : (r.map Prod.fst).Nodup) :
    (detect_pii r).isSome = true ↔
      (2 ≤ quasiStrCount r →
        ∀ e ∈ r, isQuasiStr e = true → (combMaskV e.1 e.2).isSome = true) := by
  rw [detect_pii, loop1_eq, Option.some_bind]
  simp only [Bool.false_or, Nat.zero_add, List.nil_append]
  by_cases hc : 2 ≤ quasiStrCount r
  · rw [if_pos hc]
    rw [isSome_map]
    rw [loop2_isSome_eq (applyStandalone r r) (quasiFieldList_nodup hnd)]
    rw [List.all_eq_true]
    constructor
    · intro hall hcc e he hq
      have hf : e.1 ∈ quasiFieldList r := mem_quasiFieldList.2 ⟨e, he, hq, rfl⟩
      have hok := hall e.1 hf
      have hmem5 : e.1 ∈ combinatorial_pii_fields := by
        obtain ⟨k, v⟩ := e
        simp only [isQuasiStr, Bool.and_eq_true, decide_eq_true_eq] at hq
        exact hq.1
      have hlook : lookupKey (applyStandalone r r) e.1 = some e.2 := by
        rw [lookupKey_applyStandalone_self hnd he,
          if_neg (show ¬firesStandalone e.1 e.2 = true by
            simp [not_fires_of_quasi hq])]
      simp only [fieldOk] at hok
      rw [hlook] at hok
      simpa [hmem5] using hok
    · intro hiff f hf
      obtain ⟨e, he, hq, hef⟩ := mem_quasiFieldList.1 hf
      subst hef
      have hlook : lookupKey (applyStandalone r r) e.1 = some e.2 := by
        rw [lookupKey_applyStandalone_self hnd he,
          if_neg (show ¬firesStandalone e.1 e.2 = true by
            simp [not_fires_of_quasi hq])]
      simp only [fieldOk]
      rw [hlook]
      have := hiff hc e he hq
      simp [this]
  · rw [if_neg hc]
    constructor
    · intro _ hcc
      exact absurd hcc hc
    · intro _
      rfl

theorem detect_pii_lookup {r : Record} {b : Bool} {r' : Record}
    (hnd : (r.map Prod.fst).Nodup) (h : detect_pii r = some (b, r'))
    {e : String × Value} (he : e ∈ r) :
    lookupKey r' e.1 = some (entryMaskTotal (decide (2 ≤ quasiStrCount r)) e) := by
  rw [detect_pii, loop1_eq, Option.some_bind] at h
  simp only [Bool.false_or, Nat.zero_add, List.nil_append] at h
  by_cases hc : 2 ≤ quasiStrCount r
  · rw [if_pos hc] at h
    rcases h2 : loop2 (quasiFieldList r) (applyStandalone r r) with _ | red2
    · rw [h2] at h
      simp at h
    · rw [h2] at h
      simp only [Option.map_some', Option.some.injEq, Prod.mk.injEq] at h
      rw [← h.2]
      rw [loop2_lookup (quasiFieldList_nodup hnd) h2 e.1]
      by_cases hq : isQuasiStr e = true
      · rw [if_pos (mem_quasiFieldList.2 ⟨e, he, hq, rfl⟩)]
        have hlook : lookupKey (applyStandalone r r) e.1 = some e.2 := by
          rw [lookupKey_applyStandalone_self hnd he,
            if_neg (show ¬firesStandalone e.1 e.2 = true by
              simp [not_fires_of_quasi hq])]
        rw [hlook]
        unfold entryMaskTotal
        rw [if_neg (show ¬firesStandalone e.1 e.2 = true by
            simp [not_fires_of_quasi hq]),
          if_pos (show (decide (2 ≤ quasiStrCount r) && isQuasiStr e) = true by
            simp [hq, hc])]
        rfl
      · have hnf : e.1 ∉ quasiFieldList r := by
          intro hf
          obtain ⟨e', he', hq', hef⟩ := mem_quasiFieldList.1 hf
          exact hq ((entry_unique hnd he he' hef.symm) ▸ hq')
        rw [if_neg hnf, lookupKey_applyStandalone_self hnd he]
        unfold entryMaskTotal
        by_cases hfi : firesStandalone e.1 e.2 = true
        · rw [if_pos hfi, if_pos hfi]
        · rw [if_neg hfi, if_neg hfi,
            if_neg (show ¬(decide (2 ≤ quasiStrCount r) && isQuasiStr e) = true by
              intro hcon
              rw [Bool.and_eq_true] at hcon
              exact hq hcon.2)]
  · rw [if_neg hc] at h
    simp only [Option.map_some', Option.some.injEq, Prod.mk.injEq] at h
    rw [← h.2, lookupKey_applyStandalone_self hnd he]
    unfold entryMaskTotal
    by_cases hfi : firesStandalone e.1 e.2 = true
    · rw [if_pos hfi, if_pos hfi]
    · rw [if_neg hfi, if_neg hfi,
        if_neg (show ¬(decide (2 ≤ quasiStrCount r) && isQuasiStr e) = true by
          intro hcon
          rw [Bool.and_eq_true] at hcon
          exact hc (by simpa using hcon.1))]

/-! ### Permutation invariance helpers -/

theorem lookupKey_perm {r1 r2 : Record} (hp : r1.Perm r2)
    (hnd : (r1.map Prod.fst).Nodup) (k : String) :
    lookupKey r1 k = lookupKey r2 k := by
  induction hp with
  | nil => rfl
  | cons x h ih =>
    simp only [List.map_cons, List.nodup_cons] at hnd
    simp only [lookupKey]
    by_cases hx : x.1 = k
    · rw [if_pos hx, if_pos hx]
    · rw [if_neg hx, if_neg hx]
      exact ih hnd.2
  | swap x y l =>
    simp only [List.map_cons, List.nodup_cons, List.mem_cons] at hnd
    simp only [lookupKey]
    by_cases hy : y.1 = k <;> by_cases hx : x.1 = k
    · exact absurd (hy.trans hx.symm) fun hh => hnd.1 (Or.inl hh)
    · rw [if_pos hy, if_neg hx, if_pos hy]
    · rw [if_neg hy, if_pos hx, if_pos hx]
    · rw [if_neg hy, if_neg hx, if_neg hx, if_neg hy]
  | trans h1 h2 ih1 ih2 =>
    rw [ih1 hnd, ih2 ((h1.map Prod.fst).nodup hnd)]

theorem any_eq_of_perm {α : Type} {l1 l2 : List α} (hp : l1.Perm l2)
    (p : α → Bool) : l1.any p = l2.any p := by
  cases h1 : l1.any p <;> cases h2 : l2.any p
  · rfl
  · obtain ⟨x, hx, hpx⟩ := List.any_eq_true.1 h2
    have hh : l1.any p = true := List.any_eq_true.2 ⟨x, hp.mem_iff.2 hx, hpx⟩
    exact absurd hh (by simp [h1])
  · obtain ⟨x, hx, hpx⟩ := List.any_eq_true.1 h1
    have hh : l2.any p = true := List.any_eq_true.2 ⟨x, hp.mem_iff.1 hx, hpx⟩
    exact absurd hh (by simp [h2])
  · rfl

theorem applyStandalone_id {red r : Record}
    (h : ∀ e ∈ r, firesStandalone e.1 e.2 = false) :
    applyStandalone red r = red := by
  induction r generalizing red with
  | nil => rfl
  | cons e rest ih =>
    show applyStandalone (if firesStandalone e.1 e.2 = true
        then setKey red e.1 (mask1 e) else red) rest = red
    rw [if_neg (by rw [h e (List.mem_cons_self _ _)]; simp)]
    exact ih fun e' he' => h e' (List.mem_cons_of_mem _ he')

/-! ### Claim theorems -/

/-- C1, counterexample: the record `{"name": null, "email": "a"}` has two
quasi-identifier keys present, no standalone field, yet `detect_pii`
returns `isPII = false` (and leaves the record unchanged), because the
`name` entry's value is not a string and the source's
`isinstance(value, str)` guard excludes it from the combinatorial count.
This refutes the claim that a quasi-identifier key counts by presence
alone regardless of the type of its value. -/
theorem claim1_counterexample :
    detect_pii [("name", Value.null), ("email", Value.str ['a'])] =
      some (false, [("name", Value.null), ("email", Value.str ['a'])]) ∧
    2 ≤ specQuasiPresentCount [("name", Value.null), ("email", Value.str ['a'])] ∧
    standaloneAny [("name", Value.null), ("email", Value.str ['a'])] = false := by
  refine ⟨by decide, by decide, by decide⟩

/-- C1, amended: whenever `detect_pii` returns, `isPII` is true exactly
when a standalone rule fired or at least two quasi-identifier keys are
present WITH STRING VALUES (a quasi-identifier key mapped to a number or
null does not count toward the threshold of 2). -/
theorem claim1_amended (r : Record) (b : Bool) (r' : Record)
    (h : detect_pii r = some (b, r')) :
    b = (standaloneAny r || decide (2 ≤ quasiStrCount r)) :=
  detect_pii_flag h

theorem claim1_amended_witness :
    false = (standaloneAny [("name", Value.null), ("email", Value.str ['b'])] ||
      decide (2 ≤ quasiStrCount [("name", Value.null), ("email", Value.str ['b'])])) :=
  claim1_amended [("name", Value.null), ("email", Value.str ['b'])] false
    [("name", Value.null), ("email", Value.str ['b'])] (by decide)

/-- C3, counterexample: on `{"upi_id": "johndoe@upi"}` the engine does NOT
return `isPII = true` with `upi_id` masked to `"joXXX@upi"`: the value
matches neither alternative of the UPI pattern (no dot-separated TLD, and
the local part is not 10 digits), so no rule fires at all. -/
theorem claim3_counterexample :
    detect_pii [("upi_id", Value.str "johndoe@upi".data)] ≠
      some (true, [("upi_id", Value.str "joXXX@upi".data)]) := by
  decide

/-- C3, amended: for the input record `{"upi_id": "johndoe@upi"}`,
`detect_pii` returns `isPII = false` and the redacted record equal to the
input, because `"johndoe@upi"` matches neither alternative of the
`upi_id` pattern. -/
theorem claim3_amended :
    detect_pii [("upi_id", Value.str "johndoe@upi".data)] =
      some (false, [("upi_id", Value.str "johndoe@upi".data)]) := by
  decide

/-- C4, counterexample: on a value with two `'@'` characters the part
after the second `'@'` is dropped, not preserved: both `redact_upi` and
`redact_email` send `"ab@cd@ef"` to `"abXXX@cd"`, which differs from the
claimed `"abXXX@cd@ef"`. -/
theorem claim4_counterexample :
    redact_upi "ab@cd@ef".data = some "abXXX@cd".data ∧
    redact_email "ab@cd@ef".data = some "abXXX@cd".data ∧
    "abXXX@cd".data ≠ "abXXX@cd@ef".data := by
  refine ⟨by decide, by decide, by decide⟩

/-- C4, amended: for every string containing `'@'`, `redact_upi` and
`redact_email` both return the first 2 characters of the part before the
FIRST `'@'`, then the literal `"XXX@"`, then the segment strictly between
the first `'@'` and the next `'@'` (the whole remainder when there is
only one `'@'`); any text from a second `'@'` onward is dropped, because
the source keeps only `parts[1]` of the full split. -/
theorem claim4_amended (s : List Char) (h : '@' ∈ s) :
    redact_upi s = some ((beforeSep '@' s).take 2 ++ "XXX@".data ++
        beforeSep '@' (afterFirstSep '@' s)) ∧
    redact_email s = some ((beforeSep '@' s).take 2 ++ "XXX@".data ++
        beforeSep '@' (afterFirstSep '@' s)) :=
  ⟨redact_upi_eq_of_mem h, redact_email_eq_of_mem h⟩

theorem claim4_amended_witness :
    redact_upi "ab@cd@ef".data = some ((beforeSep '@' "ab@cd@ef".data).take 2 ++
        "XXX@".data ++ beforeSep '@' (afterFirstSep '@' "ab@cd@ef".data)) ∧
    redact_email "ab@cd@ef".data = some ((beforeSep '@' "ab@cd@ef".data).take 2 ++
        "XXX@".data ++ beforeSep '@' (afterFirstSep '@' "ab@cd@ef".data)) :=
  claim4_amended "ab@cd@ef".data (by decide)

/-- C5: a record with no field named `phone`, `aadhar`, `passport` or
`upi_id` and fewer than 2 keys among the quasi-identifier set (counted by
presence) yields `isPII = false` and a redacted record equal to the
input. -/
theorem claim5_no_rule_no_change (r : Record)
    (hstand : ∀ e ∈ r,
      e.1 ∉ (["phone", "aadhar", "passport", "upi_id"] : List String))
    (hquasi : specQuasiPresentCount r < 2) :
    detect_pii r = some (false, r) := by
  have hfires : ∀ e ∈ r, firesStandalone e.1 e.2 = false := by
    intro e he
    obtain ⟨k, v⟩ := e
    have hks := hstand (k, v) he
    simp only [List.mem_cons, List.mem_singleton, not_or] at hks
    rcases v with s | n | _
    · simp [firesStandalone, hks.1, hks.2.1, hks.2.2.1, hks.2.2.2]
    · rfl
    · rfl
  have hcnt : quasiStrCount r < 2 := by
    have hle : quasiStrCount r ≤ specQuasiPresentCount r := by
      apply List.countP_mono_left
      intro e _ hq
      simp only [isQuasiStr, Bool.and_eq_true] at hq
      exact hq.1
    omega
  have hany : standaloneAny r = false := by
    cases hh : standaloneAny r
    · rfl
    · obtain ⟨e, he, hpe⟩ := List.any_eq_true.1 hh
      rw [hfires e he] at hpe
      exact absurd hpe (by simp)
  rw [detect_pii, loop1_eq, Option.some_bind]
  simp only [Bool.false_or, Nat.zero_add, List.nil_append]
  rw [if_neg (by omega), applyStandalone_id hfires, hany]
  simp [show ¬2 ≤ quasiStrCount r by omega]

theorem claim5_witness :
    detect_pii [("city", Value.str "Pune".data)] =
      some (false, [("city", Value.str "Pune".data)]) :=
  claim5_no_rule_no_change [("city", Value.str "Pune".data)]
    (by decide) (by decide)

/-- C9: whenever `upi_search` succeeds (the condition under which
`detect_pii` invokes `redact_upi`), the argument contains an `'@'`
character, so `redact_upi` takes its split branch: the split has at least
two parts and the result is built from them; the `"XXX@XXX"` fallback
branch is unreachable from `detect_pii`. -/
theorem claim9_upi_fallback_unreachable (l : List Char)
    (h : upi_search l = true) :
    '@' ∈ l ∧ ∃ p0 p1 t, splitOnAt '@' l = p0 :: p1 :: t ∧
      redact_upi l = some (p0.take 2 ++ "XXX@".data ++ p1) := by
  have hm := upi_search_mem h
  obtain ⟨t, ht⟩ := splitOnAt_two_of_mem hm
  exact ⟨hm, beforeSep '@' l, beforeSep '@' (afterFirstSep '@' l), t, ht,
    redact_upi_eq_of_mem hm⟩

theorem claim9_witness :
    '@' ∈ "ab@cd.ef".data ∧
    ∃ p0 p1 t, splitOnAt '@' "ab@cd.ef".data = p0 :: p1 :: t ∧
      redact_upi "ab@cd.ef".data = some (p0.take 2 ++ "XXX@".data ++ p1) :=
  claim9_upi_fallback_unreachable "ab@cd.ef".data (by decide)

/-- C10: whenever `detect_pii` returns, the redacted record has exactly
the same keys, in the same order, as the input record; no rule adds or
removes a key (and the input itself, being a pure value in this
embedding, is never modified - the redaction works on a copy). -/
theorem claim10_keys_preserved (r : Record) (b : Bool) (r' : Record)
    (h : detect_pii r = some (b, r')) :
    r'.map Prod.fst = r.map Prod.fst :=
  detect_pii_keys h

theorem claim10_witness :
    [("aadhar", Value.str "1234XXXX9012".data), ("note", Value.null)].map Prod.fst =
      ([("aadhar", Value.str "123456789012".data), ("note", Value.null)] : Record).map
        Prod.fst :=
  claim10_keys_preserved
    [("aadhar", Value.str "123456789012".data), ("note", Value.null)] true
    [("aadhar", Value.str "1234XXXX9012".data), ("note", Value.null)] (by decide)

/-- C2, counterexample: `detect_pii` is NOT total on well-formed records:
on `{"name": "", "email": "a"}` both quasi-identifier keys hold strings,
the combinatorial rule fires, and `redact_name("")` evaluates `name[0]`
on the empty string - an `IndexError` in the source, `none` in this
embedding - instead of clamping to a best-effort masked string. -/
theorem claim2_counterexample :
    detect_pii [("name", Value.str []), ("email", Value.str ['a'])] = none := by
  decide

/-- C2, amended: `detect_pii` returns a result for every well-formed
record in which every string-valued `name` field is non-empty and every
string-valued `email` field contains `'@'`; only the combinatorial
`redact_name` mask of an empty name and the combinatorial `redact_email`
mask of an `'@'`-free email can raise (the `phone`/`aadhar` masks do
clamp slicing). -/
theorem claim2_amended (r : Record) (hnd : (r.map Prod.fst).Nodup)
    (hname : ∀ s, ("name", Value.str s) ∈ r → s ≠ [])
    (hemail : ∀ s, ("email", Value.str s) ∈ r → '@' ∈ s) :
    (detect_pii r).isSome = true := by
  rw [detect_pii_isSome_iff hnd]
  intro _ e he hq
  obtain ⟨k, v⟩ := e
  rcases v with s | n | _
  · simp only [isQuasiStr, Bool.and_eq_true, decide_eq_true_eq] at hq
    have hk : k = "name" ∨ k = "email" ∨ k = "address" ∨ k = "device_id" ∨
        k = "ip_address" := by
      simpa [combinatorial_pii_fields] using hq.1
    rcases hk with rfl | rfl | rfl | rfl | rfl
    · show (combMaskV "name" (Value.str s)).isSome = true
      rw [show combMaskV "name" (Value.str s) = (redact_name s).map Value.str from rfl,
        isSome_map, redact_name_isSome_iff]
      exact hname s he
    · show (combMaskV "email" (Value.str s)).isSome = true
      rw [show combMaskV "email" (Value.str s) = (redact_email s).map Value.str from rfl,
        isSome_map, redact_email_isSome_iff]
      exact hemail s he
    · rfl
    · rfl
    · rfl
  · simp [isQuasiStr] at hq
  · simp [isQuasiStr] at hq

theorem claim2_amended_witness :
    (detect_pii [("name", Value.str ['J']),
      ("email", Value.str ['a', '@', 'b'])]).isSome = true :=
  claim2_amended [("name", Value.str ['J']), ("email", Value.str ['a', '@', 'b'])]
    (by decide)
    (by
      intro s hs
      simp only [List.mem_cons, Prod.mk.injEq, Value.str.injEq, List.not_mem_nil,
        or_false] at hs
      rcases hs with ⟨_, rfl⟩ | ⟨hfalse, _⟩
      · decide
      · exact absurd hfalse (by decide))
    (by
      intro s hs
      simp only [List.mem_cons, Prod.mk.injEq, Value.str.injEq, List.not_mem_nil,
        or_false] at hs
      rcases hs with ⟨hfalse, _⟩ | ⟨_, rfl⟩
      · exact absurd hfalse (by decide)
      · decide)

/-- C6, counterexample: the record
`{"phone": "9876543210", "name": "", "email": "b"}` contains a `phone`
field whose value is a string of exactly 10 digits, yet `detect_pii` does
NOT return `isPII = true`: the two string-valued quasi-identifier keys
fire the combinatorial rule and `redact_name("")` raises (`none` in this
embedding), so the call raises instead of returning.  This refutes the
claim as stated for every record. -/
theorem claim6_counterexample :
    ("phone", Value.str "9876543210".data) ∈
      ([("phone", Value.str "9876543210".data), ("name", Value.str []),
        ("email", Value.str ['b'])] : Record) ∧
    "9876543210".data.length = 10 ∧
    "9876543210".data.all isDigitC = true ∧
    detect_pii [("phone", Value.str "9876543210".data), ("name", Value.str []),
      ("email", Value.str ['b'])] = none := by
  refine ⟨by decide, by decide, by decide, by decide⟩

/-- C6, amended: whenever `detect_pii` RETURNS on a record (with distinct
keys) containing a field named `phone` whose value is a string of exactly
10 digits, `isPII` is true and the redacted record's `phone` field equals
the first 2 digits, then the literal `"XXXXXX"`, then the last 2 digits
(the call can instead raise through an unrelated combinatorial mask, see
C2). -/
theorem claim6_phone_standalone (r : Record) (s : List Char) (b : Bool)
    (r' : Record) (hnd : (r.map Prod.fst).Nodup)
    (hmem : ("phone", Value.str s) ∈ r)
    (hlen : s.length = 10) (hdig : s.all isDigitC = true)
    (h : detect_pii r = some (b, r')) :
    b = true ∧
    lookupKey r' "phone" =
      some (Value.str (s.take 2 ++ "XXXXXX".data ++ takeLast 2 s)) := by
  have hps : phone_search s = true := phone_search_of_digits hlen hdig
  have hfires : firesStandalone "phone" (Value.str s) = true := by
    simp [firesStandalone, hps]
  constructor
  · rw [detect_pii_flag h]
    have hany : standaloneAny r = true :=
      List.any_eq_true.2 ⟨("phone", Value.str s), hmem, hfires⟩
    simp [hany]
  · have hl := detect_pii_lookup hnd h hmem
    rw [hl]
    unfold entryMaskTotal
    rw [if_pos hfires]
    simp [mask1, hps, redact_phone]

theorem claim6_witness :
    (true : Bool) = true ∧
    lookupKey [("phone", Value.str "98XXXXXX10".data)] "phone" =
      some (Value.str ("9876543210".data.take 2 ++ "XXXXXX".data ++
        takeLast 2 "9876543210".data)) :=
  claim6_phone_standalone [("phone", Value.str "9876543210".data)]
    "9876543210".data true [("phone", Value.str "98XXXXXX10".data)]
    (by decide) (by decide) (by decide) (by decide) (by decide)

/-- C8, counterexample: the record `{"address": null, "email": "a@b.cd"}`
has exactly 2 quasi-identifier keys present and no standalone field, yet
`detect_pii` masks NEITHER of them (the record comes back unchanged,
`address` still null), because `address` holds a non-string value and the
code requires 2 quasi-identifier keys with STRING values before masking.
This refutes the claim that presence of exactly 2 quasi-identifier keys
triggers masking of exactly those 2 keys. -/
theorem claim8_counterexample :
    detect_pii [("address", Value.null), ("email", Value.str "a@b.cd".data)] =
      some (false, [("address", Value.null), ("email", Value.str "a@b.cd".data)]) ∧
    specQuasiPresentCount
      [("address", Value.null), ("email", Value.str "a@b.cd".data)] = 2 ∧
    standaloneAny [("address", Value.null), ("email", Value.str "a@b.cd".data)] =
      false := by
  refine ⟨by decide, by decide, by decide⟩

/-- C8, amended: whenever `detect_pii` returns on a record with distinct
keys, every field that neither fired a standalone rule nor is a
string-valued quasi-identifier field of a record with at least 2
string-valued quasi-identifier fields is returned unchanged; and when the
combinatorial rule fires, exactly the string-valued quasi-identifier
fields are replaced by their combinatorial masks. -/
theorem claim8_amended (r : Record) (b : Bool) (r' : Record)
    (hnd : (r.map Prod.fst).Nodup) (h : detect_pii r = some (b, r')) :
    ∀ e ∈ r,
      (firesStandalone e.1 e.2 = false →
        (2 ≤ quasiStrCount r → isQuasiStr e = false) →
        lookupKey r' e.1 = some e.2) ∧
      (2 ≤ quasiStrCount r → isQuasiStr e = true →
        lookupKey r' e.1 = some ((combMaskV e.1 e.2).getD e.2)) := by
  intro e he
  have hl := detect_pii_lookup hnd h he
  constructor
  · intro hnf hq
    rw [hl]
    unfold entryMaskTotal
    rw [if_neg (by simp [hnf]),
      if_neg (show ¬(decide (2 ≤ quasiStrCount r) && isQuasiStr e) = true by
        intro hcon
        rw [Bool.and_eq_true] at hcon
        by_cases hc : 2 ≤ quasiStrCount r
        · rw [hq hc] at hcon
          exact absurd hcon.2 (by simp)
        · exact hc (by simpa using hcon.1))]
  · intro hc hq
    rw [hl]
    unfold entryMaskTotal
    rw [if_neg (by simp [not_fires_of_quasi hq]), if_pos (by simp [hq, hc])]

theorem claim8_amended_witness :
    lookupKey [("name", Value.str "JXXX DXXX".data),
        ("email", Value.str "abXXX@cd.ef".data)] "name" =
      some ((combMaskV "name" (Value.str "Jon Doe".data)).getD
        (Value.str "Jon Doe".data)) :=
  (claim8_amended [("name", Value.str "Jon Doe".data),
      ("email", Value.str "ab@cd.ef".data)] true
    [("name", Value.str "JXXX DXXX".data), ("email", Value.str "abXXX@cd.ef".data)]
    (by decide) (by decide) ("name", Value.str "Jon Doe".data)
    (by decide)).2 (by decide) (by decide)

/-- C7: `detect_pii` is a pure function of the record as a mapping: it is
deterministic by construction in this embedding, and for two records that
are permutations of each other (with distinct keys), the `isPII` flag, the
success or failure of the call, and every lookup in the redacted record
coincide. -/
theorem claim7_order_independent (r1 r2 : Record)
    (hnd : (r1.map Prod.fst).Nodup) (hp : r1.Perm r2) :
    (detect_pii r1).map Prod.fst = (detect_pii r2).map Prod.fst ∧
    ∀ k, (detect_pii r1).map (fun p => lookupKey p.2 k) =
      (detect_pii r2).map (fun p => lookupKey p.2 k) := by
  have hnd2 : (r2.map Prod.fst).Nodup := (hp.map Prod.fst).nodup hnd
  have hcnt : quasiStrCount r1 = quasiStrCount r2 := hp.countP_eq isQuasiStr
  have hany : standaloneAny r1 = standaloneAny r2 :=
    any_eq_of_perm hp fun e => firesStandalone e.1 e.2
  have hiff : (detect_pii r1).isSome = true ↔ (detect_pii r2).isSome = true := by
    rw [detect_pii_isSome_iff hnd, detect_pii_isSome_iff hnd2, hcnt]
    exact imp_congr Iff.rfl
      ⟨fun H e he hq => H e (hp.mem_iff.2 he) hq,
       fun H e he hq => H e (hp.mem_iff.1 he) hq⟩
  rcases o1 : detect_pii r1 with _ | p1 <;> rcases o2 : detect_pii r2 with _ | p2
  · exact ⟨rfl, fun k => rfl⟩
  · have h1 : (detect_pii r2).isSome = true := by rw [o2]; rfl
    have h2 := hiff.2 h1
    rw [o1] at h2
    exact absurd h2 (by simp)
  · have h1 : (detect_pii r1).isSome = true := by rw [o1]; rfl
    have h2 := hiff.1 h1
    rw [o2] at h2
    exact absurd h2 (by simp)
  · obtain ⟨b1, r1'⟩ := p1
    obtain ⟨b2, r2'⟩ := p2
    have hb : b1 = b2 := by
      rw [detect_pii_flag o1, detect_pii_flag o2, hcnt, hany]
    constructor
    · simp only [Option.map_some']
      rw [hb]
    · intro k
      simp only [Option.map_some', Option.some.injEq]
      by_cases hk : k ∈ r1.map Prod.fst
      · obtain ⟨e, he, hek⟩ := List.mem_map.1 hk
        subst hek
        rw [detect_pii_lookup hnd o1 he,
          detect_pii_lookup hnd2 o2 (hp.mem_iff.1 he), hcnt]
      · have hk2 : k ∉ r2.map Prod.fst := fun hm =>
          hk ((hp.map Prod.fst).mem_iff.2 hm)
        rw [(lookupKey_eq_none_iff r1' k).2 (by rw [detect_pii_keys o1]; exact hk),
          (lookupKey_eq_none_iff r2' k).2 (by rw [detect_pii_keys o2]; exact hk2)]

theorem claim7_witness :
    ((detect_pii [("a", Value.null), ("b", Value.num 1)]).map Prod.fst =
      (detect_pii [("b", Value.num 1), ("a", Value.null)]).map Prod.fst) ∧
    ∀ k, (detect_pii [("a", Value.null), ("b", Value.num 1)]).map
        (fun p => lookupKey p.2 k) =
      (detect_pii [("b", Value.num 1), ("a", Value.null)]).map
        (fun p => lookupKey p.2 k) :=
  claim7_order_independent [("a", Value.null), ("b", Value.num 1)]
    [("b", Value.num 1), ("a", Value.null)] (by decide)
    (List.Perm.swap ("b", Value.num 1) ("a", Value.null) [])

end PII
